import Mathlib

/-!
Verification of the bounded-buffer producer/consumer program
(`EXAM_advance.cpp`): a `Product` payload with a static id counter and a
`strncpy`-truncated name, and a `Store` that combines a circular buffer
(`products`, `front`, `rear`, `size`) with three POSIX semaphores
(`sem_empty`, `sem_full`, `sem_mutex`).

The embedding passes state explicitly.  The three `sem_t` objects the
`Store` points to are carried as counter fields of the state.  `sem_wait`
on a zero counter blocks the calling actor; in the embedding a blocked
call is `none` (no successor state), a completed call is `some` of the
successor state.  Interleavings of producer/consumer calls are modelled
as sequences of atomic operations (`Op`), which is faithful because every
mutation of the buffer happens inside the `sem_mutex` critical section.
-/

def STORE_CAPACITY : Nat := 8

def NAME_MAX_LENGTH : Nat := 50

/-- The C null character. -/
def NUL : Char := Char.ofNat 0

/-- The `Product` payload: id, fixed-size `char name[NAME_MAX_LENGTH]` (modelled as the
list of the array's 50 characters), price. -/
structure Product where
  id : Int
  name : List Char
  price : Int
deriving DecidableEq, Repr

/-- The default constructor `Product()`: id 0, price 0, name zeroed by
`memset(name, 0, NAME_MAX_LENGTH)`. -/
def Product.default_ctor : Product :=
  { id := 0, name := List.replicate NAME_MAX_LENGTH NUL, price := 0 }

/-- Model of `strncpy(dest, src, n)` into a fresh array: copies characters of the
C string `src` (its characters up to the first null) until `n` characters
are copied, padding with nulls up to exactly `n` characters when the
source is shorter. -/
def strncpy_arr (src : List Char) (n : Nat) : List Char :=
  let s := src.takeWhile (fun c => c ≠ NUL)
  s.take n ++ List.replicate (n - s.length) NUL

/-- The constructor `Product(const char *name, int price)`: assigns
`id = next_id++` (the static counter is passed and returned explicitly),
`strncpy(this->name, name, NAME_MAX_LENGTH - 1)` and then
`this->name[NAME_MAX_LENGTH - 1] = '\0'`. Returns the product together
with the updated static counter. -/
def Product.ctor_named (next_id : Int) (nm : List Char) (price : Int) :
    Product × Int :=
  ({ id := next_id
   , name := strncpy_arr nm (NAME_MAX_LENGTH - 1) ++ [NUL]
   , price := price },
   next_id + 1)

/-- Initial value of the static counter: `int Product::next_id = 1;`. -/
def Product.next_id_init : Int := 1

/-- A sequence of constructions via `Product(const char*, int)` threading
the static counter, returning the constructed products and the final
counter. -/
def mkProducts (next_id : Int) : List (List Char × Int) → List Product × Int
  | [] => ([], next_id)
  | (nm, pr) :: rest =>
    let (p, next') := Product.ctor_named next_id nm pr
    let (ps, next'') := mkProducts next' rest
    (p :: ps, next'')

/-- The characters of a C string stored in a character array: everything
before the first null. -/
def cstr (arr : List Char) : List Char :=
  arr.takeWhile (fun c => c ≠ NUL)

/-- POSIX `sem_wait`: blocks while the counter is zero (modelled as `none`),
otherwise decrements it. -/
def sem_wait (n : Nat) : Option Nat :=
  if n = 0 then none else some (n - 1)

/-- POSIX `sem_post`: increments the counter, never blocks. -/
def sem_post (n : Nat) : Nat := n + 1

/-- The `Store` together with the three semaphores it points to.
`products` is the array `Product products[STORE_CAPACITY]`; `front`,
`rear`, `size` are the ring-buffer indices and occupancy count (`size` is
a C `int`, hence `Int`). -/
structure Store where
  products : List Product
  front : Nat
  rear : Nat
  size : Int
  semEmpty : Nat
  semFull : Nat
  semMutex : Nat
deriving DecidableEq, Repr

/-- The freshly constructed `Store` as set up by `main`: the constructor
zeroes `front`, `rear`, `size`; the array holds default-constructed
products; `sem_init` sets `sem_empty = STORE_CAPACITY`, `sem_full = 0`,
`sem_mutex = 1`. -/
def Store.init : Store :=
  { products := List.replicate STORE_CAPACITY Product.default_ctor
  , front := 0, rear := 0, size := 0
  , semEmpty := STORE_CAPACITY, semFull := 0, semMutex := 1 }

/-- The critical-section body of `store_product` (lines 66–68):
`products[rear] = product; rear = (rear + 1) % STORE_CAPACITY; size++;`.
No precondition check of any kind is performed here. -/
def Store.buffer_write (s : Store) (p : Product) : Store :=
  { s with
    products := s.products.set s.rear p
    rear := (s.rear + 1) % STORE_CAPACITY
    size := s.size + 1 }

/-- The critical-section body of `restore_product` (lines 79–81):
`product = products[front]; front = (front + 1) % STORE_CAPACITY; size--;`.
No precondition check of any kind is performed here. -/
def Store.buffer_read (s : Store) : Product × Store :=
  (s.products.getD s.front Product.default_ctor,
   { s with
     front := (s.front + 1) % STORE_CAPACITY
     size := s.size - 1 })

/-- Method `Store::store_product`: `sem_wait(sem_empty)`, `sem_wait(sem_mutex)`,
critical-section write, `sem_post(sem_mutex)`, `sem_post(sem_full)`.
`none` means the call blocks (at the first semaphore whose counter is
zero) and the state is not changed. -/
def Store.store_product (s : Store) (p : Product) : Option Store :=
  match sem_wait s.semEmpty with
  | none => none
  | some e =>
    match sem_wait s.semMutex with
    | none => none
    | some m =>
      some { s.buffer_write p with
             semEmpty := e
             semMutex := sem_post m
             semFull := sem_post s.semFull }

/-- Method `Store::restore_product`: `sem_wait(sem_full)`, `sem_wait(sem_mutex)`,
critical-section read, `sem_post(sem_mutex)`, `sem_post(sem_empty)`,
return the product read. -/
def Store.restore_product (s : Store) : Option (Product × Store) :=
  match sem_wait s.semFull with
  | none => none
  | some f =>
    match sem_wait s.semMutex with
    | none => none
    | some m =>
      let (p, s') := s.buffer_read
      some (p, { s' with
                 semFull := f
                 semMutex := sem_post m
                 semEmpty := sem_post s.semEmpty })

/-- The abstract queue held by the buffer: the `size` occupied slots
starting at `front`, in ring order. -/
def Store.contents (s : Store) : List Product :=
  (List.range s.size.toNat).map
    (fun i => s.products.getD ((s.front + i) % STORE_CAPACITY) Product.default_ctor)

/-- The ring-buffer index invariant stated by the spec:
`0 ≤ size ≤ CAPACITY` and `front`, `rear` in `[0, CAPACITY)`. -/
def Store.idx_inv (s : Store) : Prop :=
  0 ≤ s.size ∧ s.size ≤ (STORE_CAPACITY : Int) ∧
  s.front < STORE_CAPACITY ∧ s.rear < STORE_CAPACITY

/-- The full coupling invariant of reachable states: the index invariant,
`rear` positioned `size` slots past `front`, the array length fixed, and
the semaphore counters tracking free slots, occupied slots, and the free
mutex. -/
def Store.inv (s : Store) : Prop :=
  0 ≤ s.size ∧ s.size ≤ (STORE_CAPACITY : Int) ∧
  s.front < STORE_CAPACITY ∧ s.rear < STORE_CAPACITY ∧
  s.rear = (s.front + s.size.toNat) % STORE_CAPACITY ∧
  s.products.length = STORE_CAPACITY ∧
  s.semEmpty = STORE_CAPACITY - s.size.toNat ∧
  s.semFull = s.size.toNat ∧
  s.semMutex = 1

instance (s : Store) : Decidable s.idx_inv := by
  unfold Store.idx_inv; infer_instance

instance (s : Store) : Decidable s.inv := by
  unfold Store.inv; infer_instance

/-- An atomic channel operation: a producer's `store_product p` or a
consumer's `restore_product`. -/
inductive Op where
  | put : Product → Op
  | take : Op
deriving DecidableEq, Repr

/-- The payloads stored by the `put` operations of a trace, in order. -/
def putsOf : List Op → List Product
  | [] => []
  | Op.put p :: ops => p :: putsOf ops
  | Op.take :: ops => putsOf ops

/-- Run a trace of atomic operations from a state.  Returns the final
state and the list of payloads returned by the `take`s, in order; `none`
when some operation blocks (its semaphore counter is zero). -/
def Store.runOps (s : Store) : List Op → Option (Store × List Product)
  | [] => some (s, [])
  | Op.put p :: ops =>
    match s.store_product p with
    | none => none
    | some s' => s'.runOps ops
  | Op.take :: ops =>
    match s.restore_product with
    | none => none
    | some (p, s') =>
      match s'.runOps ops with
      | none => none
      | some (s'', outs) => some (s'', p :: outs)

/-- A small concrete payload used in witnesses. -/
def mkSample (n : Int) : Product := { id := n, name := [], price := n }

/-- Modelled from the spec: the spec-level RingBuffer `write` of §4.1,
which "fails with `CapacityExceeded` if precondition violated" instead of
mutating; absent from the code, whose critical section performs no check. -/
inductive RBError where
  | capacityExceeded
  | underflow
deriving DecidableEq, Repr

/-- Modelled from the spec: §4.1 `write(item)` — requires
`size < CAPACITY`; stores at `rear`, advances `rear`, increments `size`;
fails with `CapacityExceeded` if the precondition is violated. -/
def writeSpec (s : Store) (p : Product) : Except RBError Store :=
  if s.size < (STORE_CAPACITY : Int) then Except.ok (s.buffer_write p)
  else Except.error RBError.capacityExceeded

/-- Modelled from the spec: §4.1 `read()` — requires `size > 0`; returns
the item at `front`, advances `front`, decrements `size`; fails with
`Underflow` if the precondition is violated. -/
def readSpec (s : Store) : Except RBError (Product × Store) :=
  if 0 < s.size then Except.ok s.buffer_read
  else Except.error RBError.underflow

/-- Concrete state for witnesses: the fresh store after
`store_product (mkSample 1)`. -/
def storeW1 : Store :=
  { Store.init with
    products := Store.init.products.set 0 (mkSample 1)
    rear := 1
    size := 1
    semEmpty := 7
    semFull := 1 }

/-- Concrete state for witnesses: the fresh store after
`store_product (mkSample 1)` then `restore_product`. -/
def storeW0 : Store :=
  { Store.init with
    products := Store.init.products.set 0 (mkSample 1)
    front := 1
    rear := 1 }

/-- Concrete state for witnesses: the fresh store after
`store_product (mkSample 1)`, `restore_product`,
`store_product (mkSample 2)`. -/
def storeW2 : Store :=
  { Store.init with
    products := (Store.init.products.set 0 (mkSample 1)).set 1 (mkSample 2)
    front := 1
    rear := 2
    size := 1
    semEmpty := 7
    semFull := 1 }

/-- Concrete state for witnesses: the full store reached from the fresh
store by eight `store_product` calls. -/
def storeW8 : Store :=
  { Store.init with
    products := (List.range STORE_CAPACITY).map (fun i => mkSample i)
    rear := 0
    size := 8
    semEmpty := 0
    semFull := 8 }

/-! ## Basic lemmas about the semaphore-guarded operations -/

/-- Distinct offsets less than one full turn land on distinct ring slots. -/
theorem mod_index_ne {a i j : Nat} (hij : i < j) (hj : j < i + STORE_CAPACITY) :
    (a + i) % STORE_CAPACITY ≠ (a + j) % STORE_CAPACITY := by
  simp only [STORE_CAPACITY] at *
  omega

/-- A `store_product` call blocks exactly when `sem_empty` or `sem_mutex`
is zero; when it completes, the successor state is the critical-section
write with `sem_empty` decremented and `sem_full` incremented (`sem_mutex`
is reacquired and released, hence unchanged). -/
theorem store_product_some_eq (s : Store) (p : Product) (s' : Store)
    (h : s.store_product p = some s') :
    s.semEmpty ≠ 0 ∧ s.semMutex ≠ 0 ∧
    s' = { s with
           products := s.products.set s.rear p
           rear := (s.rear + 1) % STORE_CAPACITY
           size := s.size + 1
           semEmpty := s.semEmpty - 1
           semFull := s.semFull + 1 } := by
  by_cases hE : s.semEmpty = 0
  · simp [Store.store_product, sem_wait, hE] at h
  · by_cases hM : s.semMutex = 0
    · simp [Store.store_product, sem_wait, hE, hM] at h
    · refine ⟨hE, hM, ?_⟩
      simp only [Store.store_product, sem_wait, hE, hM, if_neg,
        Store.buffer_write, sem_post, ite_false] at h
      have h' := Option.some.inj h
      have hmut : s.semMutex - 1 + 1 = s.semMutex := by omega
      rw [← h', hmut]

/-- A `restore_product` call blocks exactly when `sem_full` or `sem_mutex`
is zero; when it completes, it returns the product at `front` and the
critical-section read with `sem_full` decremented and `sem_empty`
incremented. -/
theorem restore_product_some_eq (s : Store) (p : Product) (s' : Store)
    (h : s.restore_product = some (p, s')) :
    s.semFull ≠ 0 ∧ s.semMutex ≠ 0 ∧
    p = s.products.getD s.front Product.default_ctor ∧
    s' = { s with
           front := (s.front + 1) % STORE_CAPACITY
           size := s.size - 1
           semFull := s.semFull - 1
           semEmpty := s.semEmpty + 1 } := by
  by_cases hF : s.semFull = 0
  · simp [Store.restore_product, sem_wait, hF] at h
  · by_cases hM : s.semMutex = 0
    · simp [Store.restore_product, sem_wait, hF, hM] at h
    · obtain ⟨hp, hs⟩ : p = s.products.getD s.front Product.default_ctor ∧
          { s with
            front := (s.front + 1) % STORE_CAPACITY
            size := s.size - 1
            semFull := s.semFull - 1
            semMutex := s.semMutex - 1 + 1
            semEmpty := s.semEmpty + 1 } = s' := by
        simpa [Store.restore_product, sem_wait, hF, hM,
          Store.buffer_read, sem_post, eq_comm] using h
      have hmut : s.semMutex - 1 + 1 = s.semMutex := by omega
      rw [hmut] at hs
      exact ⟨hF, hM, hp, hs.symm⟩

/-- With `sem_empty = 0` the producer blocks at its first `sem_wait`,
before touching the buffer. -/
theorem store_product_blocked (s : Store) (p : Product)
    (h : s.semEmpty = 0) : s.store_product p = none := by
  simp [Store.store_product, sem_wait, h]

/-- With `sem_full = 0` the consumer blocks at its first `sem_wait`,
before touching the buffer. -/
theorem restore_product_blocked (s : Store) (h : s.semFull = 0) :
    s.restore_product = none := by
  simp [Store.restore_product, sem_wait, h]

/-- A `store_product` call completes whenever both semaphores it waits on
are positive. -/
theorem store_product_some_of (s : Store) (p : Product)
    (hE : s.semEmpty ≠ 0) (hM : s.semMutex ≠ 0) :
    ∃ s', s.store_product p = some s' := by
  simp [Store.store_product, sem_wait, hE, hM]

/-- A `restore_product` call completes whenever both semaphores it waits
on are positive. -/
theorem restore_product_some_of (s : Store)
    (hF : s.semFull ≠ 0) (hM : s.semMutex ≠ 0) :
    ∃ p s', s.restore_product = some (p, s') := by
  simp [Store.restore_product, sem_wait, hF, hM]

/-! ## The queue abstraction of the ring buffer -/

/-- The coupling invariant holds in the freshly constructed store. -/
theorem init_inv : Store.init.inv := by decide

/-- The freshly constructed store holds nothing. -/
theorem init_contents : Store.init.contents = [] := rfl

/-- One completed `store_product` step: the invariant is preserved and the
stored payload is appended to the abstract queue. -/
theorem store_step (s : Store) (p : Product) (s' : Store)
    (hinv : s.inv) (h : s.store_product p = some s') :
    s'.inv ∧ s'.contents = s.contents ++ [p] ∧ s'.size = s.size + 1 := by
  obtain ⟨hE, hM, rfl⟩ := store_product_some_eq s p s' h
  obtain ⟨h0, h1, h2, h3, h4, h5, h6, h7, h8⟩ := hinv
  simp only [STORE_CAPACITY] at h1 h2 h3 h4 h5 h6 h7
  have hsz : s.size.toNat < 8 := by omega
  refine ⟨?_, ?_, rfl⟩
  · unfold Store.inv
    dsimp only
    simp only [STORE_CAPACITY, List.length_set]
    refine ⟨?_, ?_, ?_, ?_, ?_, ?_, ?_, ?_, ?_⟩ <;> omega
  · show ({ s with
        products := s.products.set s.rear p
        rear := (s.rear + 1) % STORE_CAPACITY
        size := s.size + 1
        semEmpty := s.semEmpty - 1
        semFull := s.semFull + 1 } : Store).contents = s.contents ++ [p]
    unfold Store.contents
    dsimp only
    simp only [STORE_CAPACITY]
    have ht : (s.size + 1).toNat = s.size.toNat + 1 := by omega
    rw [ht, List.range_succ, List.map_append]
    congr 1
    · apply List.map_congr_left
      intro i hi
      rw [List.mem_range] at hi
      have hne : s.rear ≠ (s.front + i) % 8 := by
        rw [h4]
        exact (mod_index_ne hi (by simp only [STORE_CAPACITY]; omega)).symm
      simp only [List.getD_eq_getElem?_getD, List.getElem?_set_ne hne]
    · have hr : s.rear < s.products.length := by omega
      simp only [List.map_cons, List.map_nil, ← h4,
        List.getD_eq_getElem?_getD, List.getElem?_set_self hr, Option.getD_some]

/-- One completed `restore_product` step: the invariant is preserved and
the returned payload is the head of the abstract queue. -/
theorem restore_step (s : Store) (p : Product) (s' : Store)
    (hinv : s.inv) (h : s.restore_product = some (p, s')) :
    s'.inv ∧ s.contents = p :: s'.contents ∧ s'.size = s.size - 1 := by
  obtain ⟨hF, hM, hp, rfl⟩ := restore_product_some_eq s p s' h
  obtain ⟨h0, h1, h2, h3, h4, h5, h6, h7, h8⟩ := hinv
  simp only [STORE_CAPACITY] at h1 h2 h3 h4 h5 h6 h7
  have hsz : 0 < s.size.toNat := by omega
  refine ⟨?_, ?_, rfl⟩
  · unfold Store.inv
    dsimp only
    simp only [STORE_CAPACITY]
    refine ⟨?_, ?_, ?_, ?_, ?_, ?_, ?_, ?_, ?_⟩ <;> omega
  · show s.contents = p :: ({ s with
        front := (s.front + 1) % STORE_CAPACITY
        size := s.size - 1
        semFull := s.semFull - 1
        semEmpty := s.semEmpty + 1 } : Store).contents
    unfold Store.contents
    dsimp only
    simp only [STORE_CAPACITY]
    have ht : s.size.toNat = (s.size - 1).toNat + 1 := by omega
    rw [ht, List.range_succ_eq_map, List.map_cons, List.map_map]
    congr 1
    · rw [Nat.add_zero, Nat.mod_eq_of_lt h2]
      exact hp.symm
    · apply List.map_congr_left
      intro i hi
      simp only [Function.comp]
      rw [Nat.mod_add_mod]
      congr 2
      omega

/-! ## Trace-level lemmas -/

/-- Soundness of a completed trace: the invariant is preserved and the
taken payloads followed by the remaining buffer contents are exactly the
initial contents followed by the payloads put, in order. -/
theorem runOps_sound (ops : List Op) : ∀ (s : Store), s.inv →
    ∀ s' outs, s.runOps ops = some (s', outs) →
    s'.inv ∧ outs ++ s'.contents = s.contents ++ putsOf ops := by
  induction ops with
  | nil =>
    intro s hinv s' outs h
    simp only [Store.runOps, Option.some.injEq, Prod.mk.injEq] at h
    obtain ⟨rfl, rfl⟩ := h
    simp [putsOf, hinv]
  | cons op ops ih =>
    intro s hinv s' outs h
    cases op with
    | put p =>
      cases hsp : s.store_product p with
      | none =>
        simp only [Store.runOps, hsp] at h
        exact Option.noConfusion h
      | some t =>
        simp only [Store.runOps, hsp] at h
        obtain ⟨tinv, tcont,atsize⟩ := store_step s p t hinv hsp
        obtain ⟨sinv', heq⟩ := ih t tinv s' outs h
        refine ⟨sinv', ?_⟩
        simp only [putsOf]
        rw [heq, tcont]
        simp
    | take =>
      cases hr : s.restore_product with
      | none =>
        simp only [Store.runOps, hr] at h
        exact Option.noConfusion h
      | some pr =>
        obtain ⟨p, t⟩ := pr
        cases hrun : t.runOps ops with
        | none =>
          simp only [Store.runOps, hr, hrun] at h
          exact Option.noConfusion h
        | some res =>
          obtain ⟨s'', outs'⟩ := res
          simp only [Store.runOps, hr, hrun, Option.some.injEq, Prod.mk.injEq] at h
          obtain ⟨rfl, rfl⟩ := h
          obtain ⟨tinv, tcont, atsize⟩ := restore_step s p t hinv hr
          obtain ⟨sinv', heq⟩ := ih t tinv _ _ hrun
          refine ⟨sinv', ?_⟩
          simp only [putsOf]
          rw [tcont]
          simp only [List.cons_append]
          rw [heq]

/-- A batch of `put`s completes as long as it fits the free capacity, and
appends its payloads to the abstract queue. -/
theorem puts_complete (ps : List Product) : ∀ (s : Store), s.inv →
    s.size + ps.length ≤ (STORE_CAPACITY : Int) →
    ∃ s', s.runOps (ps.map Op.put) = some (s', []) ∧ s'.inv ∧
      s'.contents = s.contents ++ ps ∧ s'.size = s.size + ps.length := by
  induction ps with
  | nil =>
    intro s hinv _
    exact ⟨s, by simp [Store.runOps], hinv, by simp, by simp⟩
  | cons p ps ih =>
    intro s hinv hcap
    have hE : s.semEmpty ≠ 0 := by
      obtain ⟨h0, h1, h2, h3, h4, h5, h6, h7, h8⟩ := hinv
      simp only [STORE_CAPACITY] at h6 hcap
      simp only [List.length_cons] at hcap
      omega
    have hM : s.semMutex ≠ 0 := by
      obtain ⟨h0, h1, h2, h3, h4, h5, h6, h7, h8⟩ := hinv
      omega
    obtain ⟨t, ht⟩ := store_product_some_of s p hE hM
    obtain ⟨tinv, tcont, tsize⟩ := store_step s p t hinv ht
    obtain ⟨s', hrun, sinv', scont, ssize⟩ := ih t tinv (by
      rw [tsize]
      simp only [STORE_CAPACITY] at hcap ⊢
      simp only [List.length_cons] at hcap
      push_cast at hcap ⊢
      omega)
    refine ⟨s', ?_, sinv', ?_, ?_⟩
    · simp only [List.map_cons, Store.runOps, ht]
      exact hrun
    · rw [scont, tcont]
      simp
    · rw [ssize, tsize]
      simp only [List.length_cons]
      push_cast
      ring

/-- A batch of `take`s completes as long as it does not exceed the
occupancy, and removes and returns the front of the abstract queue. -/
theorem takes_complete (n : Nat) : ∀ (s : Store), s.inv → (n : Int) ≤ s.size →
    ∃ s', s.runOps (List.replicate n Op.take) = some (s', s.contents.take n) ∧
      s'.inv ∧ s'.contents = s.contents.drop n ∧ s'.size = s.size - n := by
  induction n with
  | zero =>
    intro s hinv _
    exact ⟨s, by simp [Store.runOps], hinv, by simp, by simp⟩
  | succ n ih =>
    intro s hinv hn
    have hF : s.semFull ≠ 0 := by
      obtain ⟨h0, h1, h2, h3, h4, h5, h6, h7, h8⟩ := hinv
      omega
    have hM : s.semMutex ≠ 0 := by
      obtain ⟨h0, h1, h2, h3, h4, h5, h6, h7, h8⟩ := hinv
      omega
    obtain ⟨p, t, hrt⟩ := restore_product_some_of s hF hM
    obtain ⟨tinv, tcont, tsize⟩ := restore_step s p t hinv hrt
    obtain ⟨s', hrun, sinv', scont, ssize⟩ := ih t tinv (by
      rw [tsize]
      push_cast at hn ⊢
      omega)
    refine ⟨s', ?_, sinv', ?_, ?_⟩
    · simp only [List.replicate_succ, Store.runOps, hrt, hrun]
      rw [tcont, List.take_succ_cons]
    · rw [scont, tcont, List.drop_succ_cons]
    · rw [ssize, tsize]
      push_cast
      ring

/-- Running a concatenated trace is running the pieces in sequence,
concatenating the takes' outputs. -/
theorem runOps_append (l₁ l₂ : List Op) : ∀ (s : Store),
    s.runOps (l₁ ++ l₂) =
      (s.runOps l₁).bind (fun r =>
        (r.1.runOps l₂).map (fun r₂ => (r₂.1, r.2 ++ r₂.2))) := by
  induction l₁ with
  | nil =>
    intro s
    simp only [List.nil_append, Store.runOps, Option.bind_some]
    cases h : s.runOps l₂ <;> simp [h]
  | cons op l₁ ih =>
    intro s
    cases op with
    | put p =>
      cases hsp : s.store_product p with
      | none => simp [Store.runOps, hsp]
      | some t => simp only [List.cons_append, Store.runOps, hsp]; exact ih t
    | take =>
      cases hr : s.restore_product with
      | none => simp [Store.runOps, hr]
      | some pr =>
        obtain ⟨p, t⟩ := pr
        simp only [List.cons_append, Store.runOps, hr, List.append_eq]
        rw [ih t]
        cases h₁ : t.runOps l₁ with
        | none => simp
        | some r =>
          cases h₂ : r.1.runOps l₂ with
          | none => simp [h₂]
          | some r₂ => simp [h₂]

/-! ## Claims about single operations -/

/-- C3: for every reachable store state (coupling invariant) with
`size < STORE_CAPACITY`, `store_product` completes and stores the item at
index `rear`, then sets `rear` to `(rear + 1) % STORE_CAPACITY` and
increments `size` by one (leaving `front` unchanged). -/
theorem store_product_write_semantics (s : Store) (p : Product)
    (hinv : s.inv) (hlt : s.size < (STORE_CAPACITY : Int)) :
    ∃ s', s.store_product p = some s' ∧
      s'.products = s.products.set s.rear p ∧
      s'.products.getD s.rear Product.default_ctor = p ∧
      s'.rear = (s.rear + 1) % STORE_CAPACITY ∧
      s'.size = s.size + 1 ∧
      s'.front = s.front := by
  obtain ⟨h0, h1, h2, h3, h4, h5, h6, h7, h8⟩ := hinv
  have hE : s.semEmpty ≠ 0 := by
    simp only [STORE_CAPACITY] at h6 hlt h1
    omega
  have hM : s.semMutex ≠ 0 := by omega
  obtain ⟨t, ht⟩ := store_product_some_of s p hE hM
  obtain ⟨-, -, rfl⟩ := store_product_some_eq s p t ht
  refine ⟨_, ht, rfl, ?_, rfl, rfl, rfl⟩
  have hr : s.rear < s.products.length := by
    simp only [STORE_CAPACITY] at h3 h5
    omega
  dsimp only
  simp only [List.getD_eq_getElem?_getD, List.getElem?_set_self hr,
    Option.getD_some]

/-- C3 witness: the write semantics evaluated at the fresh store. -/
theorem store_product_write_semantics_witness :
    ∃ s', Store.init.store_product (mkSample 1) = some s' ∧
      s'.products = Store.init.products.set Store.init.rear (mkSample 1) ∧
      s'.products.getD Store.init.rear Product.default_ctor = mkSample 1 ∧
      s'.rear = (Store.init.rear + 1) % STORE_CAPACITY ∧
      s'.size = Store.init.size + 1 ∧
      s'.front = Store.init.front :=
  store_product_write_semantics Store.init (mkSample 1) (by decide) (by decide)

/-- C4: for every reachable store state (coupling invariant) with
`size > 0`, `restore_product` completes and returns the item at index
`front`, then sets `front` to `(front + 1) % STORE_CAPACITY` and
decrements `size` by one (leaving `rear` unchanged). -/
theorem restore_product_read_semantics (s : Store)
    (hinv : s.inv) (hpos : 0 < s.size) :
    ∃ s', s.restore_product
        = some (s.products.getD s.front Product.default_ctor, s') ∧
      s'.front = (s.front + 1) % STORE_CAPACITY ∧
      s'.size = s.size - 1 ∧
      s'.rear = s.rear := by
  obtain ⟨h0, h1, h2, h3, h4, h5, h6, h7, h8⟩ := hinv
  have hF : s.semFull ≠ 0 := by omega
  have hM : s.semMutex ≠ 0 := by omega
  obtain ⟨p, t, ht⟩ := restore_product_some_of s hF hM
  obtain ⟨-, -, hp, rfl⟩ := restore_product_some_eq s p t ht
  rw [hp] at ht
  exact ⟨_, ht, rfl, rfl, rfl⟩

/-- C4 witness: the read semantics evaluated at the store holding one
product. -/
theorem restore_product_read_semantics_witness :
    ∃ s', storeW1.restore_product
        = some (storeW1.products.getD storeW1.front Product.default_ctor, s') ∧
      s'.front = (storeW1.front + 1) % STORE_CAPACITY ∧
      s'.size = storeW1.size - 1 ∧
      s'.rear = storeW1.rear :=
  restore_product_read_semantics storeW1 (by decide) (by decide)

/-- C5: the ring-buffer index invariant (`0 ≤ size ≤ CAPACITY` and
`front`, `rear` in `[0, CAPACITY)`) holds in the freshly constructed
store, and is preserved by every completed `store_product` performed with
`size < CAPACITY` and every completed `restore_product` performed with
`size > 0`. -/
theorem ring_index_invariant_holds :
    Store.init.idx_inv ∧
    (∀ (s : Store) (p : Product) (s' : Store), s.idx_inv →
      s.size < (STORE_CAPACITY : Int) → s.store_product p = some s' →
      s'.idx_inv) ∧
    (∀ (s : Store) (p : Product) (s' : Store), s.idx_inv →
      0 < s.size → s.restore_product = some (p, s') → s'.idx_inv) := by
  refine ⟨by decide, ?_, ?_⟩
  · intro s p s' hidx hlt h
    obtain ⟨-, -, rfl⟩ := store_product_some_eq s p s' h
    obtain ⟨h0, h1, h2, h3⟩ := hidx
    unfold Store.idx_inv
    dsimp only
    simp only [STORE_CAPACITY] at h1 h2 h3 hlt ⊢
    refine ⟨?_, ?_, ?_, ?_⟩ <;> omega
  · intro s p s' hidx hpos h
    obtain ⟨-, -, -, rfl⟩ := restore_product_some_eq s p s' h
    obtain ⟨h0, h1, h2, h3⟩ := hidx
    unfold Store.idx_inv
    dsimp only
    simp only [STORE_CAPACITY] at h1 h2 h3 ⊢
    refine ⟨?_, ?_, ?_, ?_⟩ <;> omega

/-- C5 witness: the index invariant evaluated along a concrete
`store_product` then `restore_product` from the fresh store. -/
theorem ring_index_invariant_holds_witness :
    Store.init.idx_inv ∧ storeW1.idx_inv ∧ storeW0.idx_inv :=
  ⟨ring_index_invariant_holds.1,
   ring_index_invariant_holds.2.1 Store.init (mkSample 1) storeW1
     (by decide) (by decide) (by decide),
   ring_index_invariant_holds.2.2 storeW1 (mkSample 1) storeW0
     (by decide) (by decide) (by decide)⟩

/-- C9: frame effect — a completed `store_product` leaves `front` and
every buffer slot other than the one at the old `rear` unchanged, and a
completed `restore_product` leaves `rear` and the contents of every
buffer slot unchanged (it only copies out and updates `front`, `size`
and the semaphores). -/
theorem frame_effects :
    (∀ (s : Store) (p : Product) (s' : Store), s.store_product p = some s' →
      s'.front = s.front ∧
      ∀ i : Nat, i ≠ s.rear →
        s'.products.getD i Product.default_ctor
          = s.products.getD i Product.default_ctor) ∧
    (∀ (s : Store) (p : Product) (s' : Store),
      s.restore_product = some (p, s') →
      s'.rear = s.rear ∧ s'.products = s.products) := by
  constructor
  · intro s p s' h
    obtain ⟨-, -, rfl⟩ := store_product_some_eq s p s' h
    refine ⟨rfl, ?_⟩
    intro i hi
    dsimp only
    simp only [List.getD_eq_getElem?_getD, List.getElem?_set_ne (Ne.symm hi)]
  · intro s p s' h
    obtain ⟨-, -, -, rfl⟩ := restore_product_some_eq s p s' h
    exact ⟨rfl, rfl⟩

/-- C9 witness: the frame effect evaluated along a concrete
`store_product` from the fresh store and `restore_product` from the
store holding one product. -/
theorem frame_effects_witness :
    (storeW1.front = Store.init.front ∧
      ∀ i : Nat, i ≠ Store.init.rear →
        storeW1.products.getD i Product.default_ctor
          = Store.init.products.getD i Product.default_ctor) ∧
    (storeW0.rear = storeW1.rear ∧ storeW0.products = storeW1.products) :=
  ⟨frame_effects.1 Store.init (mkSample 1) storeW1 (by decide),
   frame_effects.2 storeW1 (mkSample 1) storeW0 (by decide)⟩

/-! ## Claims about whole runs -/

/-- C1: no loss or duplication — for every sequence of N `store_product`
calls with distinct payloads followed by N `restore_product` calls (all
completing, which bounds N by the capacity), the takes return exactly
those N payloads, in order, in particular each exactly once and nothing
that was not stored. -/
theorem no_loss_no_duplication (ps : List Product) (_hnd : ps.Nodup)
    (hlen : ps.length ≤ STORE_CAPACITY) :
    ∃ s', Store.init.runOps
        (ps.map Op.put ++ List.replicate ps.length Op.take)
      = some (s', ps) := by
  obtain ⟨s₁, h₁, inv₁, cont₁, size₁⟩ := puts_complete ps Store.init init_inv (by
    have h0 : Store.init.size = 0 := rfl
    rw [h0]
    simp only [STORE_CAPACITY] at hlen ⊢
    omega)
  obtain ⟨s₂, h₂, inv₂, cont₂, size₂⟩ := takes_complete ps.length s₁ inv₁ (by
    have h0 : Store.init.size = 0 := rfl
    rw [size₁, h0]
    omega)
  refine ⟨s₂, ?_⟩
  rw [runOps_append, h₁, Option.some_bind, h₂, Option.map_some']
  rw [cont₁, init_contents]
  simp [List.take_length]

/-- C1 witness: three distinct payloads stored then taken come back
exactly and in order. -/
theorem no_loss_no_duplication_witness :
    ∃ s', Store.init.runOps
        ([mkSample 1, mkSample 2, mkSample 3].map Op.put
          ++ List.replicate [mkSample 1, mkSample 2, mkSample 3].length Op.take)
      = some (s', [mkSample 1, mkSample 2, mkSample 3]) :=
  no_loss_no_duplication [mkSample 1, mkSample 2, mkSample 3]
    (by decide) (by decide)

/-- C2: FIFO order — for every completed interleaving of `store_product`
and `restore_product` calls from the fresh store (completion means every
read found its precondition satisfied), the payloads returned by the
takes, followed by what remains buffered, are exactly the payloads stored,
in storage order; in particular the takes return a prefix of the stored
sequence in exactly the order stored. -/
theorem fifo_order (ops : List Op) (s' : Store) (outs : List Product)
    (h : Store.init.runOps ops = some (s', outs)) :
    outs ++ s'.contents = putsOf ops ∧
    outs = (putsOf ops).take outs.length := by
  obtain ⟨-, heq⟩ := runOps_sound ops Store.init init_inv s' outs h
  rw [init_contents] at heq
  simp only [List.nil_append] at heq
  refine ⟨heq, ?_⟩
  rw [← heq]
  exact (List.take_left outs s'.contents).symm

/-- C2 witness: a concrete interleaving put, take, put. -/
theorem fifo_order_witness :
    [mkSample 1] ++ storeW2.contents
        = putsOf [Op.put (mkSample 1), Op.take, Op.put (mkSample 2)] ∧
    [mkSample 1] = (putsOf [Op.put (mkSample 1), Op.take,
        Op.put (mkSample 2)]).take [mkSample 1].length :=
  fifo_order [Op.put (mkSample 1), Op.take, Op.put (mkSample 2)]
    storeW2 [mkSample 1] (by decide)

/-- C6 counterexample: at the concrete full store reached by eight
`store_product` calls, `store_product` does not fail with any error — it
blocks, leaving no successor state — exactly where the spec-modelled
RingBuffer `write` signals `CapacityExceeded`; the code's unguarded
critical-section write performs no check and would silently mutate
(size pushed to `CAPACITY + 1`, the unconsumed slot at the old `rear`
overwritten); likewise `restore_product` on the fresh empty store blocks
where the spec-modelled `read` signals `Underflow`. -/
theorem precondition_failure_counterexample :
    Store.init.runOps
        ((List.range STORE_CAPACITY).map (fun i => Op.put (mkSample i)))
      = some (storeW8, []) ∧
    storeW8.size = (STORE_CAPACITY : Int) ∧
    storeW8.store_product (mkSample 9) = none ∧
    writeSpec storeW8 (mkSample 9) = Except.error RBError.capacityExceeded ∧
    (storeW8.buffer_write (mkSample 9)).size = (STORE_CAPACITY : Int) + 1 ∧
    (storeW8.buffer_write (mkSample 9)).products.getD 0 Product.default_ctor
      = mkSample 9 ∧
    Store.init.restore_product = none ∧
    readSpec Store.init = Except.error RBError.underflow :=
  ⟨by decide, by decide, by decide, by rfl, by decide, by decide,
   by decide, by rfl⟩

/-- C6 (amended): a `store_product` invoked on a full reachable store
blocks on the empty-slot semaphore with no successor state (hence no
mutation), and a `restore_product` invoked on an empty reachable store
blocks on the full-slot semaphore likewise; no `CapacityExceeded` or
`Underflow` failure is signalled anywhere — the code defines no such
errors. -/
theorem blocked_rather_than_error (s : Store) (hinv : s.inv) :
    (s.size = (STORE_CAPACITY : Int) → ∀ p, s.store_product p = none) ∧
    (s.size = 0 → s.restore_product = none) := by
  obtain ⟨h0, h1, h2, h3, h4, h5, h6, h7, h8⟩ := hinv
  constructor
  · intro hfull p
    apply store_product_blocked
    rw [h6]
    simp only [STORE_CAPACITY] at hfull ⊢
    omega
  · intro hempty
    apply restore_product_blocked
    rw [h7]
    omega

/-- C6 witness: the amended behaviour at the concrete full store and the
fresh empty store. -/
theorem blocked_rather_than_error_witness :
    storeW8.store_product (mkSample 9) = none ∧
    Store.init.restore_product = none :=
  ⟨(blocked_rather_than_error storeW8 (by decide)).1 (by decide) (mkSample 9),
   (blocked_rather_than_error Store.init (by decide)).2 (by decide)⟩

/-- C7: backpressure — after `STORE_CAPACITY` completed `store_product`
calls and no `restore_product`, the empty-slot semaphore is zero, so the
next `store_product` blocks at its first `sem_wait`, with no successor
state and the buffer untouched; every completed `store_product` strictly
decreases `sem_empty` while only `restore_product` increments it, so the
blocked call cannot proceed until at least one `restore_product` occurs —
and after one it does proceed. -/
theorem backpressure (ps : List Product) (hlen : ps.length = STORE_CAPACITY)
    (p : Product) :
    ∃ s₈, Store.init.runOps (ps.map Op.put) = some (s₈, []) ∧
      s₈.semEmpty = 0 ∧
      s₈.store_product p = none ∧
      (∀ (t : Store) (q : Product), t.semEmpty = 0 →
        t.store_product q = none) ∧
      (∀ (t u : Store) (q : Product), t.store_product q = some u →
        t.semEmpty ≠ 0 ∧ u.semEmpty = t.semEmpty - 1) ∧
      (∀ (t u : Store) (q : Product), t.restore_product = some (q, u) →
        u.semEmpty = t.semEmpty + 1) ∧
      (∃ q s₉, s₈.restore_product = some (q, s₉) ∧
        (s₉.store_product p).isSome = true) := by
  obtain ⟨s₈, h₈, inv₈, cont₈, size₈⟩ := puts_complete ps Store.init init_inv (by
    have h0 : Store.init.size = 0 := rfl
    rw [h0, hlen]
    simp)
  have hsize : s₈.size.toNat = 8 := by
    have h0 : Store.init.size = 0 := rfl
    rw [h0, hlen] at size₈
    simp only [STORE_CAPACITY] at size₈
    omega
  obtain ⟨h0, h1, h2, h3, h4, h5, h6, h7, h8⟩ := inv₈
  have hE : s₈.semEmpty = 0 := by
    rw [h6, hsize]
    simp [STORE_CAPACITY]
  refine ⟨s₈, h₈, hE, store_product_blocked s₈ p hE, ?_, ?_, ?_, ?_⟩
  · exact fun t q ht => store_product_blocked t q ht
  · intro t u q h
    obtain ⟨htE, -, rfl⟩ := store_product_some_eq t q u h
    exact ⟨htE, rfl⟩
  · intro t u q h
    obtain ⟨-, -, -, rfl⟩ := restore_product_some_eq t q u h
    rfl
  · have hF : s₈.semFull ≠ 0 := by
      rw [h7, hsize]
      omega
    have hM : s₈.semMutex ≠ 0 := by omega
    obtain ⟨q, s₉, h₉⟩ := restore_product_some_of s₈ hF hM
    refine ⟨q, s₉, h₉, ?_⟩
    obtain ⟨-, -, -, hs₉⟩ := restore_product_some_eq s₈ q s₉ h₉
    have h₉E : s₉.semEmpty ≠ 0 := by
      rw [hs₉]
      dsimp only
      omega
    have h₉M : s₉.semMutex ≠ 0 := by
      rw [hs₉]
      dsimp only
      omega
    obtain ⟨t, ht⟩ := store_product_some_of s₉ p h₉E h₉M
    rw [ht]
    rfl

/-- C7 witness: eight concrete payloads fill the store; the ninth put
blocks until a take. -/
theorem backpressure_witness :
    ∃ s₈, Store.init.runOps
        (((List.range STORE_CAPACITY).map (fun i => mkSample i)).map Op.put)
      = some (s₈, []) ∧
      s₈.semEmpty = 0 ∧
      s₈.store_product (mkSample 9) = none ∧
      (∀ (t : Store) (q : Product), t.semEmpty = 0 →
        t.store_product q = none) ∧
      (∀ (t u : Store) (q : Product), t.store_product q = some u →
        t.semEmpty ≠ 0 ∧ u.semEmpty = t.semEmpty - 1) ∧
      (∀ (t u : Store) (q : Product), t.restore_product = some (q, u) →
        u.semEmpty = t.semEmpty + 1) ∧
      (∃ q s₉, s₈.restore_product = some (q, s₉) ∧
        (s₉.store_product (mkSample 9)).isSome = true) :=
  backpressure ((List.range STORE_CAPACITY).map (fun i => mkSample i))
    (by decide) (mkSample 9)

/-! ## Claims about the payload constructor -/

/-- Ids assigned by a run of constructions starting at counter value
`next_id` are `next_id, next_id + 1, ...` in construction order. -/
theorem mkProducts_ids (args : List (List Char × Int)) : ∀ next_id : Int,
    (mkProducts next_id args).1.map Product.id
      = (List.range args.length).map (fun i : Nat => next_id + (i : Int)) := by
  induction args with
  | nil =>
    intro next
    simp [mkProducts]
  | cons a rest ih =>
    intro next
    obtain ⟨nm, pr⟩ := a
    simp only [mkProducts, Product.ctor_named, List.map_cons, List.length_cons]
    rw [ih (next + 1), List.range_succ_eq_map, List.map_cons, List.map_map]
    congr 1
    · simp
    · apply List.map_congr_left
      intro i hi
      simp only [Function.comp_apply]
      push_cast
      ring

/-- C8: ids assigned by a sequence of `Product(name, price)` constructions
within one actor are `1, 2, 3, ...` — strictly increasing, each new id
greater than every id assigned before it, starting from the counter's
initial value 1. -/
theorem product_ids_monotonic (args : List (List Char × Int)) :
    ((mkProducts Product.next_id_init args).1.map Product.id
      = (List.range args.length).map (fun i : Nat => 1 + (i : Int))) ∧
    List.Pairwise (fun a b => a < b)
      ((mkProducts Product.next_id_init args).1.map Product.id) := by
  have h := mkProducts_ids args Product.next_id_init
  refine ⟨h, ?_⟩
  rw [h]
  exact List.Pairwise.map _ (fun a b hab => by omega)
    (List.pairwise_lt_range args.length)

/-- The name array written by the `Product(const char*, int)` constructor,
in closed form: the first `NAME_MAX_LENGTH - 1` source characters, null
padding, and the explicitly written terminator. -/
theorem ctor_name_eq (next_id price : Int) (src : List Char)
    (hsrc : NUL ∉ src) :
    (Product.ctor_named next_id src price).1.name
      = src.take (NAME_MAX_LENGTH - 1)
        ++ List.replicate (NAME_MAX_LENGTH - 1 - src.length) NUL ++ [NUL] := by
  have hsw : src.takeWhile (fun c => c ≠ NUL) = src :=
    List.takeWhile_eq_self_iff.mpr (fun c hc => by
      simp only [decide_eq_true_eq]
      exact fun h => hsrc (h ▸ hc))
  simp only [Product.ctor_named, strncpy_arr]
  rw [hsw]

/-- C10: for every input C string and price, the constructed name field
is the 50-character array ending in a null terminator whose C-string
value holds at most `NAME_MAX_LENGTH - 1 = 49` characters: inputs of at
most 49 characters are copied exactly, longer inputs are truncated to
their first 49 characters. -/
theorem name_truncation (src : List Char) (price next_id : Int)
    (hsrc : NUL ∉ src) :
    ((Product.ctor_named next_id src price).1.name).length = NAME_MAX_LENGTH ∧
    ((Product.ctor_named next_id src price).1.name).getLast? = some NUL ∧
    cstr ((Product.ctor_named next_id src price).1.name)
      = src.take (NAME_MAX_LENGTH - 1) ∧
    (cstr ((Product.ctor_named next_id src price).1.name)).length
      ≤ NAME_MAX_LENGTH - 1 := by
  have hname := ctor_name_eq next_id price src hsrc
  have hcstr : cstr ((Product.ctor_named next_id src price).1.name)
      = src.take (NAME_MAX_LENGTH - 1) := by
    rw [hname]
    unfold cstr
    rw [List.append_assoc]
    rw [List.takeWhile_append_of_pos (fun c hc => by
      simp only [decide_eq_true_eq]
      exact fun h => hsrc (h ▸ List.mem_of_mem_take hc))]
    rw [← List.replicate_succ']
    rw [List.takeWhile_replicate]
    simp
  refine ⟨?_, ?_, hcstr, ?_⟩
  · rw [hname]
    simp only [List.length_append, List.length_take, List.length_replicate,
      List.length_cons, List.length_nil, NAME_MAX_LENGTH]
    omega
  · rw [hname]
    exact List.getLast?_concat _
  · rw [hcstr]
    simp only [List.length_take]
    omega

/-- C10 witness: the truncation property at a concrete catalog name. -/
theorem name_truncation_witness :
    ((Product.ctor_named 1 "iPhone 14 Pro Max".toList 14000).1.name).length
      = NAME_MAX_LENGTH ∧
    ((Product.ctor_named 1 "iPhone 14 Pro Max".toList 14000).1.name).getLast?
      = some NUL ∧
    cstr ((Product.ctor_named 1 "iPhone 14 Pro Max".toList 14000).1.name)
      = "iPhone 14 Pro Max".toList.take (NAME_MAX_LENGTH - 1) ∧
    (cstr ((Product.ctor_named 1 "iPhone 14 Pro Max".toList 14000).1.name)).length
      ≤ NAME_MAX_LENGTH - 1 :=
  name_truncation "iPhone 14 Pro Max".toList 14000 1 (by decide)
